import Mathlib

/-!
Verification of the sigmartc SFU server against its specification.

The Go sources under internal/server (handler.go, models.go, admin.go), the
logger package (lineBuffer) and the client-side audio controls
(web/static/js/audio_controls.js) are shallowly embedded below.  Time values
are modelled as integers counting nanoseconds, matching Go durations; maps
are modelled as association lists; external library calls (pion WebRTC, the
Go net package, the filesystem) are modelled by explicit state transitions or
abstract parameters, as noted at each definition.
-/

namespace Sigmartc

/-! ## Client-side audio controls (web/static/js/audio_controls.js)

The JS functions operate on binary64 numbers; on the integer and small
rational values reached here every operation is exact after Math.round, so
integers and rationals model the computation faithfully.  The NaN guard
branches of the source are unreachable for numeric inputs and are not
modelled. -/

def MAX_PERCENT : Int := 200

def MIN_PERCENT : Int := 0

/-- clampPercent from audio_controls.js restricted to integer inputs:
Math.min(MAX_PERCENT, Math.max(MIN_PERCENT, num)). -/
def clampPercent (value : Int) : Int :=
  min MAX_PERCENT (max MIN_PERCENT value)

/-- percentToGain from audio_controls.js: clampPercent(percent) / 100. -/
def percentToGain (percent : Int) : ℚ :=
  (clampPercent percent : ℚ) / 100

/-- gainToPercent from audio_controls.js:
clampPercent(Math.round(num * 100)).  Math.round rounds half toward
positive infinity, as does Mathlib round on ℚ. -/
def gainToPercent (gain : ℚ) : Int :=
  clampPercent (round (gain * 100))

/-! ## Admin endpoint authorization (admin.go, HandleAdmin)

The guard of HandleAdmin: the request is rejected with 401 when
key == "" or key != AdminKey; otherwise the action dispatch runs. -/

/-- The authorization guard of HandleAdmin: true exactly when the request
passes the check key != "" and key == adminKey of admin.go. -/
def handleAdminAuthorized (key adminKey : String) : Bool :=
  !(key == "" || key != adminKey)

/-! ## Ban list (models.go: RoomManager.BanIP / IsBanned)

The ban set is the BannedIPs map with value true; saving the ban list to
disk may fail, which the source only logs.  The save outcome is an abstract
boolean input; the returned flag records whether an error was logged. -/

structure BanState where
  bannedIPs : List String
  deriving Repr, DecidableEq

/-- RoomManager.BanIP: set BannedIPs[ip] = true, attempt saveBanList, and
log on save failure without rolling back.  Returns the new state and
whether a persistence error was logged. -/
def BanIP (st : BanState) (ip : String) (saveOK : Bool) : BanState × Bool :=
  let st := { st with bannedIPs := if ip ∈ st.bannedIPs then st.bannedIPs else ip :: st.bannedIPs }
  (st, !saveOK)

/-- RoomManager.IsBanned: map lookup with Go zero-value default false. -/
def IsBanned (st : BanState) (ip : String) : Bool :=
  st.bannedIPs.contains ip

/-! ## Room registry cleanup (models.go: RoomManager.cleanup)

A room is modelled by its peer id list and its LastEmptyTime; cleanup
iterates the registry and deletes each room whose snapshot shows zero peers
and more than two hours since it last became empty. -/

def twoHoursNs : Int := 7200000000000

structure RoomModel where
  peers : List String
  lastEmptyTime : Int
  deriving Repr, DecidableEq

/-- The removal condition of RoomManager.cleanup for one room:
peerCount == 0 and now - lastEmpty > 2h. -/
def roomExpired (now : Int) (room : RoomModel) : Bool :=
  room.peers.length == 0 && decide (now - room.lastEmptyTime > twoHoursNs)

/-- RoomManager.cleanup: delete every room satisfying the removal
condition, keep every other (uuid, room) entry unchanged. -/
def cleanup (now : Int) (rooms : List (String × RoomModel)) : List (String × RoomModel) :=
  rooms.filter (fun entry => !roomExpired now entry.2)

/-! ## Capacity check (handler.go, HandleWS lines 118 to 127)

Under the room write lock: when the peer map already holds maxRoomPeers
entries the joiner gets one error frame and the channel is closed, and the
map is left untouched; otherwise the peer is inserted. -/

def maxRoomPeers : Nat := 10

structure WsControlMsg where
  type : String
  message : String
  deriving Repr, DecidableEq

structure CapacityResult where
  peers : List (String × String)
  sentToJoiner : List WsControlMsg
  closed : Bool
  deriving Repr, DecidableEq

/-- The capacity-check section of HandleWS: peers maps peer id to peer
state (here the nickname).  On len(peers) >= maxRoomPeers, send the Room
full error and close without registering; otherwise register the peer. -/
def capacityCheck (peers : List (String × String)) (peerID name : String) : CapacityResult :=
  if peers.length ≥ maxRoomPeers then
    { peers := peers
      sentToJoiner := [{ type := "error", message := "Room full" }]
      closed := true }
  else
    { peers := (peerID, name) :: peers
      sentToJoiner := []
      closed := false }

/-! ## Per-peer negotiation state (handler.go)

The negotiation flag block of the Peer structure, together with the
pending ICE candidate list.  The Go zero time of LastIceRestart is
modelled by none. -/

def iceRestartMinNs : Int := 15000000000

structure PeerState where
  makingOffer : Bool
  negotiationPending : Bool
  negotiationInProgress : Bool
  iceRestartPending : Bool
  lastIceRestart : Option Int
  pendingCandidates : List Nat
  deriving Repr, DecidableEq

/-- Handler.requestNegotiationWithICE: under the negotiation mutex, an
ice-restart request is rejected when the previous restart is less than
iceRestartMin ago; an accepted restart records now and sets the restart
flag.  The request always sets NegotiationPending unless rejected, and a
worker is spawned when none is in progress.  The boolean result records
whether runNegotiation was spawned. -/
def requestNegotiationWithICE (p : PeerState) (iceRestart : Bool) (now : Int) :
    PeerState × Bool :=
  let rejected := iceRestart &&
    (match p.lastIceRestart with
     | some t => decide (now - t < iceRestartMinNs)
     | none => false)
  if rejected then (p, false)
  else
    let p := if iceRestart then
        { p with lastIceRestart := some now, iceRestartPending := true }
      else p
    let p := { p with negotiationPending := true }
    if p.negotiationInProgress then (p, false)
    else ({ p with negotiationInProgress := true }, true)

/-- An ice-restart request at time now is accepted by
requestNegotiationWithICE (the rejection guard does not fire). -/
def iceAccepted (p : PeerState) (now : Int) : Bool :=
  match p.lastIceRestart with
  | some t => decide (now - t ≥ iceRestartMinNs)
  | none => true

/-- The times of the accepted ice-restart requests in a sequence of
requestNegotiationWithICE calls (each event is the iceRestart flag and
the clock reading of the call). -/
def acceptedIceTimes (p : PeerState) : List (Bool × Int) → List Int
  | [] => []
  | (ice, now) :: rest =>
    let next := (requestNegotiationWithICE p ice now).1
    if ice && iceAccepted p now then now :: acceptedIceTimes next rest
    else acceptedIceTimes next rest

/-! ## Signaling message handling (handler.go, handleSignalingMessage)

The pion PeerConnection is modelled by its signaling state, its remote
description, and the list of ICE candidates added to it, in the order of
the AddICECandidate calls.  The SDP operations of the offer and answer
branches are modelled on their success path (rollback returns the state
to stable, SetRemoteDescription installs the description, CreateAnswer
plus SetLocalDescription return the state to stable); a closed connection
never reaches these branches because of the PC nil guard and is outside
the model.  The trace of externally visible operations is recorded so
that ordering claims can be stated. -/

inductive SigState
  | stable
  | haveLocalOffer
  | haveRemoteOffer
  deriving Repr, DecidableEq

structure PCState where
  signalingState : SigState
  remoteDescription : Option String
  candidates : List Nat
  deriving Repr, DecidableEq

inductive SigOp
  | rollback
  | setRemote (sdp : String)
  | sendAnswer
  | requestNegotiation
  | dropOffer
  deriving Repr, DecidableEq

/-- Handler.flushPendingCandidates: take the pending list, clear it, and
add every candidate to the endpoint in order. -/
def flushPendingCandidates (pc : PCState) (p : PeerState) : PCState × PeerState :=
  ({ pc with candidates := pc.candidates ++ p.pendingCandidates },
   { p with pendingCandidates := [] })

/-- The offer branch of handleSignalingMessage: detect a collision when
MakingOffer is set or the state is have-local-offer (then mark pending
and clear MakingOffer); drop the offer in state have-remote-offer; roll
back in state have-local-offer; apply the remote offer, flush pending
candidates, answer; and after a collision request a fresh negotiation. -/
def handleOffer (pc : PCState) (p : PeerState) (sdp : String) :
    PCState × PeerState × List SigOp :=
  let state := pc.signalingState
  let offerCollision := p.makingOffer || state == SigState.haveLocalOffer
  let p := if offerCollision then
      { p with negotiationPending := true, makingOffer := false }
    else p
  if state == SigState.haveRemoteOffer then (pc, p, [SigOp.dropOffer])
  else
    let rolled := state == SigState.haveLocalOffer
    let pc := if rolled then { pc with signalingState := SigState.stable } else pc
    let pc := { pc with remoteDescription := some sdp
                        signalingState := SigState.haveRemoteOffer }
    let (pc, p) := flushPendingCandidates pc p
    let pc := { pc with signalingState := SigState.stable }
    let ops := (if rolled then [SigOp.rollback] else []) ++
      [SigOp.setRemote sdp, SigOp.sendAnswer]
    if offerCollision then
      let p := (requestNegotiationWithICE p false 0).1
      (pc, p, ops ++ [SigOp.requestNegotiation])
    else (pc, p, ops)

/-- The answer branch of handleSignalingMessage: apply the remote answer
and flush pending candidates. -/
def handleAnswer (pc : PCState) (p : PeerState) (sdp : String) :
    PCState × PeerState :=
  let pc := { pc with remoteDescription := some sdp
                      signalingState := SigState.stable }
  flushPendingCandidates pc p

/-- The candidate branch of handleSignalingMessage: buffer the candidate
while no remote description is set, otherwise add it to the endpoint. -/
def handleCandidate (pc : PCState) (p : PeerState) (c : Nat) :
    PCState × PeerState :=
  if pc.remoteDescription = none then
    (pc, { p with pendingCandidates := p.pendingCandidates ++ [c] })
  else
    ({ pc with candidates := pc.candidates ++ [c] }, p)

/-! ## Client IP derivation (handler.go: clientIP, parseRemoteIP,
isTrustedProxy)

The Go net package is abstracted: an IP type with parsing,
canonical printing via String, the SplitHostPort host extraction, and
the loopback and private classifications are parameters.  String
trimming and comma splitting are embedded directly; Lean trim differs
from Go TrimSpace only on non-ASCII whitespace. -/

/-- strings.TrimSpace on a byte string: drop whitespace from both
ends. -/
def trimSpace (s : List Char) : List Char :=
  ((s.dropWhile Char.isWhitespace).reverse.dropWhile Char.isWhitespace).reverse

/-- strings.Split on the comma separator: an empty input yields one
empty entry, like the Go function. -/
def splitOnComma : List Char → List (List Char)
  | [] => [[]]
  | c :: rest =>
    if c = ',' then [] :: splitOnComma rest
    else
      match splitOnComma rest with
      | [] => [[c]]
      | entry :: entries => (c :: entry) :: entries

structure NetModel where
  IP : Type
  splitHostPort : List Char → Option (List Char)
  parseIP : List Char → Option IP
  ipToString : IP → List Char
  isLoopback : IP → Bool
  isPrivate : IP → Bool

structure RequestModel where
  remoteAddr : List Char
  xRealIP : List Char
  xForwardedFor : List Char

/-- parseRemoteIP from handler.go: extract the host from host:port when
possible, then parse; on split failure parse the whole address. -/
def parseRemoteIP (M : NetModel) (remoteAddr : List Char) : Option M.IP :=
  match M.splitHostPort remoteAddr with
  | some host => M.parseIP host
  | none => M.parseIP remoteAddr

/-- isTrustedProxy from handler.go: nil is untrusted, otherwise loopback
or private. -/
def isTrustedProxy (M : NetModel) : Option M.IP → Bool
  | none => false
  | some ip => M.isLoopback ip || M.isPrivate ip

/-- The X-Forwarded-For loop of clientIP: skip empty entries, return the
canonical string of the first entry that parses. -/
def firstForwardedIP (M : NetModel) : List (List Char) → Option (List Char)
  | [] => none
  | part :: rest =>
    let candidate := trimSpace part
    if candidate = [] then firstForwardedIP M rest
    else
      match M.parseIP candidate with
      | some ip => some (M.ipToString ip)
      | none => firstForwardedIP M rest

/-- clientIP from handler.go. -/
def clientIP (M : NetModel) (r : RequestModel) : List Char :=
  let remoteIP := parseRemoteIP M r.remoteAddr
  let header : Option (List Char) :=
    if isTrustedProxy M remoteIP then
      let realIP := trimSpace r.xRealIP
      let viaReal : Option (List Char) :=
        if realIP ≠ [] then
          match M.parseIP realIP with
          | some ip => some (M.ipToString ip)
          | none => none
        else none
      match viaReal with
      | some s => some s
      | none =>
        let xff := trimSpace r.xForwardedFor
        if xff ≠ [] then firstForwardedIP M (splitOnComma xff) else none
    else none
  match header with
  | some s => s
  | none =>
    match remoteIP with
    | some ip => M.ipToString ip
    | none => r.remoteAddr

/-- The claim, as stated: when the immediate remote address is a loopback
or private IP, return the X-Real-IP value if it parses as an IP,
otherwise the first comma-separated X-Forwarded-For entry that parses as
an IP; in every other case return the IP of the raw remote address (the
raw address itself when it holds no IP). -/
def clientIPSpec (M : NetModel) (r : RequestModel) : List Char :=
  match parseRemoteIP M r.remoteAddr with
  | none => r.remoteAddr
  | some rip =>
    if M.isLoopback rip || M.isPrivate rip then
      match M.parseIP (trimSpace r.xRealIP) with
      | some ip => M.ipToString ip
      | none =>
        match firstForwardedIP M (splitOnComma (trimSpace r.xForwardedFor)) with
        | some s => s
        | none => M.ipToString rip
    else M.ipToString rip

/-- A small concrete instantiation of the net primitives, used to
exercise the clientIP theorems on closed inputs. -/
def testNet : NetModel where
  IP := List Char
  splitHostPort s :=
    if s.contains ':' then some (s.takeWhile (fun c => c ≠ ':')) else none
  parseIP s :=
    if s = [] then none
    else if s.all (fun c => c.isDigit || c = '.') then some s else none
  ipToString ip := ip
  isLoopback ip := ip = ("127.0.0.1").toList
  isPrivate ip := ip = ("10.0.0.1").toList

/-! ## Log ring buffer (logger package: lineBuffer, GetRecentLogs;
admin.go: Handler.getLogs)

Byte streams are modelled as char lists.  The buffer keeps the complete
lines seen so far, capped at max, plus the partial tail after the last
newline.  The recent limit is a natural number; the Go int limit is
non-positive exactly when the model limit is zero, and the only caller
passes 100. -/

structure LineBuffer where
  max : Nat
  lines : List (List Char)
  carry : List Char
  deriving Repr, DecidableEq

def newLineBuffer (max : Nat) : LineBuffer :=
  { max := max, lines := [], carry := [] }

/-- lineBuffer.append: with the buffer full, shift every line left by
one (dropping the oldest) and place the new line last; otherwise grow. -/
def LineBuffer.append (b : LineBuffer) (line : List Char) : LineBuffer :=
  if b.max = 0 then b
  else if b.max ≤ b.lines.length then
    { b with lines := b.lines.tail ++ [line] }
  else { b with lines := b.lines ++ [line] }

/-- The newline-splitting loop of lineBuffer.write: cut the stream at
each newline, returning the complete lines in order and the leftover
partial tail; acc holds the reversed chars of the line being read. -/
def splitLinesAux (acc : List Char) (cs : List Char) :
    List (List Char) × List Char :=
  match cs with
  | [] => ([], acc.reverse)
  | c :: rest =>
    if c = '\n' then
      let res := splitLinesAux [] rest
      (acc.reverse :: res.1, res.2)
    else splitLinesAux (c :: acc) rest

/-- The complete (newline-terminated) lines of a stream. -/
def completeLines (cs : List Char) : List (List Char) :=
  (splitLinesAux [] cs).1

/-- The partial tail of a stream after its last newline. -/
def carryOf (cs : List Char) : List Char :=
  (splitLinesAux [] cs).2

/-- lineBuffer.write: append the chunk to the partial buffer, then move
every complete line into the ring. -/
def LineBuffer.write (b : LineBuffer) (p : List Char) : LineBuffer :=
  let res := splitLinesAux [] (b.carry ++ p)
  res.1.foldl LineBuffer.append { b with carry := res.2 }

/-- lineBuffer.recent: nothing for a zero limit or an empty buffer,
otherwise the last min(limit, length) lines in order. -/
def LineBuffer.recent (b : LineBuffer) (limit : Nat) : List (List Char) :=
  if limit = 0 ∨ b.lines = [] then []
  else b.lines.drop (b.lines.length - min limit b.lines.length)

/-- Handler.getLogs: logger.GetRecentLogs with limit 100. -/
def getLogs (b : LineBuffer) : List (List Char) :=
  b.recent 100

/-- The last n elements of a list, in order. -/
def takeLast {α : Type} (n : Nat) (l : List α) : List α :=
  l.drop (l.length - n)

end Sigmartc

namespace Sigmartc

/-! # Theorems -/

/-- A call that is not an accepted ice restart leaves LastIceRestart
unchanged. -/
theorem lastIceRestart_unchanged (p : PeerState) (ice : Bool) (now : Int)
    (h : (ice && iceAccepted p now) = false) :
    ((requestNegotiationWithICE p ice now).1).lastIceRestart = p.lastIceRestart := by
  cases ice with
  | false =>
    simp only [requestNegotiationWithICE, Bool.false_and, if_neg, Bool.false_eq_true,
      not_false_eq_true, if_false]
    split <;> rfl
  | true =>
    simp only [Bool.true_and] at h
    unfold requestNegotiationWithICE iceAccepted at *
    cases hl : p.lastIceRestart with
    | none => simp [hl] at h
    | some t =>
      simp only [hl] at h ⊢
      have : now - t < iceRestartMinNs := by
        by_contra hc
        simp [decide_eq_true_eq, not_lt] at h ⊢
        omega
      simp [this, hl]

/-- An accepted ice restart records its own time. -/
theorem lastIceRestart_accepted (p : PeerState) (now : Int)
    (h : iceAccepted p now = true) :
    ((requestNegotiationWithICE p true now).1).lastIceRestart = some now := by
  unfold requestNegotiationWithICE iceAccepted at *
  cases hl : p.lastIceRestart with
  | none => simp [hl]; split <;> rfl
  | some t =>
    simp only [hl, decide_eq_true_eq] at h
    have : ¬(now - t < iceRestartMinNs) := by omega
    simp [hl, this]
    split <;> rfl

/-- The accepted ice-restart times, prefixed by any previously recorded
restart time, are chained with gaps of at least iceRestartMin. -/
theorem acceptedIceTimes_chain (evs : List (Bool × Int)) (p : PeerState) :
    List.Chain' (fun a b => b - a ≥ iceRestartMinNs)
      (p.lastIceRestart.toList ++ acceptedIceTimes p evs) := by
  induction evs generalizing p with
  | nil =>
    cases p.lastIceRestart <;> simp [acceptedIceTimes]
  | cons ev rest ih =>
    obtain ⟨ice, now⟩ := ev
    by_cases hacc : (ice && iceAccepted p now) = true
    · have hice : ice = true := by
        cases ice <;> simp_all
      have hac : iceAccepted p now = true := by
        cases hiA : iceAccepted p now <;> simp_all
      have hlast : ((requestNegotiationWithICE p ice now).1).lastIceRestart = some now := by
        rw [hice]; exact lastIceRestart_accepted p now hac
      have ihnext := ih ((requestNegotiationWithICE p ice now).1)
      rw [hlast] at ihnext
      simp only [acceptedIceTimes, hacc, if_pos]
      cases hl : p.lastIceRestart with
      | none => simpa using ihnext
      | some t =>
        have hgap : now - t ≥ iceRestartMinNs := by
          unfold iceAccepted at hac
          simp only [hl, decide_eq_true_eq] at hac
          exact hac
        simp only [Option.toList_some, List.singleton_append, List.cons_append] at ihnext ⊢
        exact List.chain'_cons.mpr ⟨hgap, by simpa using ihnext⟩
    · have hacc' : (ice && iceAccepted p now) = false := by
        cases h : (ice && iceAccepted p now) <;> simp_all
      have hlast := lastIceRestart_unchanged p ice now hacc'
      have ihnext := ih ((requestNegotiationWithICE p ice now).1)
      rw [hlast] at ihnext
      simpa [acceptedIceTimes, hacc'] using ihnext

/-- C3: an ice-restart request less than 15 seconds after the previously
accepted restart is rejected with the whole peer state unchanged; an
accepted restart records now and raises the restart flag; consequently
the accepted restart times of any request sequence on a fresh peer are
separated by at least 15 seconds. -/
theorem iceRestart_rate_limit :
    (∀ (p : PeerState) (now t : Int), p.lastIceRestart = some t →
        now - t < iceRestartMinNs →
        requestNegotiationWithICE p true now = (p, false)) ∧
    (∀ (p : PeerState) (now : Int), iceAccepted p now = true →
        ((requestNegotiationWithICE p true now).1.lastIceRestart = some now ∧
         (requestNegotiationWithICE p true now).1.iceRestartPending = true ∧
         (requestNegotiationWithICE p true now).1.negotiationPending = true)) ∧
    (∀ (p : PeerState) (evs : List (Bool × Int)), p.lastIceRestart = none →
        List.Chain' (fun a b => b - a ≥ iceRestartMinNs) (acceptedIceTimes p evs)) := by
  refine ⟨?_, ?_, ?_⟩
  · intro p now t hl hlt
    unfold requestNegotiationWithICE
    simp [hl, hlt]
  · intro p now hac
    refine ⟨lastIceRestart_accepted p now hac, ?_, ?_⟩ <;>
    · unfold requestNegotiationWithICE iceAccepted at *
      cases hl : p.lastIceRestart with
      | none => simp [hl]; split <;> rfl
      | some t =>
        simp only [hl, decide_eq_true_eq] at hac
        have : ¬(now - t < iceRestartMinNs) := by omega
        simp [hl, this]
        split <;> rfl
  · intro p evs hl
    have := acceptedIceTimes_chain evs p
    rw [hl] at this
    simpa using this

/-- Witness for C3: a restart 5 ns after the previous one is rejected
unchanged, and on a fresh peer three restarts spaced 15 s apart are all
accepted with chained gaps. -/
theorem iceRestart_rate_limit_witness :
    requestNegotiationWithICE
        { makingOffer := false, negotiationPending := false,
          negotiationInProgress := false, iceRestartPending := false,
          lastIceRestart := some 0, pendingCandidates := [] } true 5 =
      ({ makingOffer := false, negotiationPending := false,
         negotiationInProgress := false, iceRestartPending := false,
         lastIceRestart := some 0, pendingCandidates := [] }, false) ∧
    List.Chain' (fun a b => b - a ≥ iceRestartMinNs)
      (acceptedIceTimes
        { makingOffer := false, negotiationPending := false,
          negotiationInProgress := false, iceRestartPending := false,
          lastIceRestart := none, pendingCandidates := [] }
        [(true, 0), (true, 15000000000), (false, 15000000001)]) := by
  constructor
  · exact iceRestart_rate_limit.1 _ 5 0 rfl (by norm_num [iceRestartMinNs])
  · exact iceRestart_rate_limit.2.2 _ _ rfl

/-- An inbound offer seen while MakingOffer is set but the signaling
state is stable: a collision is detected, yet the remote offer is
applied without any rollback, refuting the unconditional rollback
clause of the claim. -/
theorem offer_collision_without_rollback :
    let pc : PCState :=
      { signalingState := SigState.stable, remoteDescription := some "prev",
        candidates := [] }
    let p : PeerState :=
      { makingOffer := true, negotiationPending := false,
        negotiationInProgress := false, iceRestartPending := false,
        lastIceRestart := none, pendingCandidates := [] }
    (p.makingOffer || pc.signalingState == SigState.haveLocalOffer) = true ∧
    SigOp.rollback ∉ (handleOffer pc p "o").2.2 ∧
    SigOp.setRemote "o" ∈ (handleOffer pc p "o").2.2 := by
  decide

/-- C1 (amended): a collision is detected exactly when MakingOffer is set
or the state is have-local-offer; an offer arriving in state
have-remote-offer is dropped with the endpoint untouched; otherwise a
rollback happens exactly when the state is have-local-offer, before the
remote offer is applied and answered; and after answering, a new
negotiation is requested exactly under collision, leaving the pending
flag set.  Without collision the remote offer is applied directly. -/
theorem handleOffer_glare (pc : PCState) (p : PeerState) (sdp : String) :
    (SigOp.rollback ∈ (handleOffer pc p sdp).2.2 ↔
       pc.signalingState = SigState.haveLocalOffer) ∧
    (SigOp.requestNegotiation ∈ (handleOffer pc p sdp).2.2 ↔
       ((p.makingOffer = true ∨ pc.signalingState = SigState.haveLocalOffer) ∧
        pc.signalingState ≠ SigState.haveRemoteOffer)) ∧
    (pc.signalingState = SigState.haveRemoteOffer →
       (handleOffer pc p sdp).1 = pc ∧
       (handleOffer pc p sdp).2.2 = [SigOp.dropOffer]) ∧
    (pc.signalingState = SigState.haveLocalOffer →
       (handleOffer pc p sdp).2.2 =
         [SigOp.rollback, SigOp.setRemote sdp, SigOp.sendAnswer,
          SigOp.requestNegotiation] ∧
       (handleOffer pc p sdp).1.remoteDescription = some sdp ∧
       (handleOffer pc p sdp).2.1.negotiationPending = true) ∧
    (pc.signalingState = SigState.stable ∧ p.makingOffer = true →
       (handleOffer pc p sdp).2.2 =
         [SigOp.setRemote sdp, SigOp.sendAnswer, SigOp.requestNegotiation] ∧
       (handleOffer pc p sdp).1.remoteDescription = some sdp ∧
       (handleOffer pc p sdp).2.1.negotiationPending = true) ∧
    (pc.signalingState = SigState.stable ∧ p.makingOffer = false →
       (handleOffer pc p sdp).2.2 = [SigOp.setRemote sdp, SigOp.sendAnswer] ∧
       (handleOffer pc p sdp).1.remoteDescription = some sdp) := by
  cases hs : pc.signalingState <;> cases hm : p.makingOffer <;>
    simp [handleOffer, flushPendingCandidates, requestNegotiationWithICE, hs, hm] <;>
    split <;> simp

/-- Witness for C1 at a concrete collision in state have-local-offer:
the trace rolls back, applies the remote offer, answers, and requests a
new negotiation. -/
theorem handleOffer_glare_witness :
    (handleOffer
        { signalingState := SigState.haveLocalOffer, remoteDescription := none,
          candidates := [] }
        { makingOffer := true, negotiationPending := false,
          negotiationInProgress := false, iceRestartPending := false,
          lastIceRestart := none, pendingCandidates := [] } "sdp1").2.2 =
      [SigOp.rollback, SigOp.setRemote "sdp1", SigOp.sendAnswer,
       SigOp.requestNegotiation] := by
  exact ((handleOffer_glare _ _ "sdp1").2.2.2.1 rfl).1

/-- C2: a candidate arriving while the remote description is nil is
appended to the pending list with the endpoint untouched, otherwise it is
added to the endpoint; and on both the answer path and every offer path
that applies the remote description, the pending list is drained into the
endpoint in FIFO order and left empty. -/
theorem pending_candidates_drain (pc : PCState) (p : PeerState) (c : Nat) (sdp : String) :
    (pc.remoteDescription = none →
       handleCandidate pc p c =
         (pc, { p with pendingCandidates := p.pendingCandidates ++ [c] })) ∧
    (pc.remoteDescription ≠ none →
       handleCandidate pc p c =
         ({ pc with candidates := pc.candidates ++ [c] }, p)) ∧
    ((handleAnswer pc p sdp).1.candidates = pc.candidates ++ p.pendingCandidates ∧
     (handleAnswer pc p sdp).2.pendingCandidates = []) ∧
    (pc.signalingState ≠ SigState.haveRemoteOffer →
       (handleOffer pc p sdp).1.candidates = pc.candidates ++ p.pendingCandidates ∧
       (handleOffer pc p sdp).2.1.pendingCandidates = []) := by
  refine ⟨?_, ?_, ?_, ?_⟩
  · intro h
    simp [handleCandidate, h]
  · intro h
    simp [handleCandidate, h]
  · simp [handleAnswer, flushPendingCandidates]
  · intro h
    cases hs : pc.signalingState <;> simp [hs] at h ⊢ <;>
      simp [handleOffer, flushPendingCandidates, requestNegotiationWithICE, hs]
    all_goals try (split <;> simp)
    all_goals try (split <;> simp)

/-- Witness for C2 at concrete inputs: a candidate is buffered while the
remote description is nil, and an answer drains the buffer into the
endpoint. -/
theorem pending_candidates_drain_witness :
    handleCandidate
        { signalingState := SigState.stable, remoteDescription := none,
          candidates := [] }
        { makingOffer := false, negotiationPending := false,
          negotiationInProgress := false, iceRestartPending := false,
          lastIceRestart := none, pendingCandidates := [7] } 9 =
      ({ signalingState := SigState.stable, remoteDescription := none,
         candidates := [] },
       { makingOffer := false, negotiationPending := false,
         negotiationInProgress := false, iceRestartPending := false,
         lastIceRestart := none, pendingCandidates := [7, 9] }) ∧
    (handleAnswer
        { signalingState := SigState.haveLocalOffer, remoteDescription := none,
          candidates := [3] }
        { makingOffer := false, negotiationPending := false,
          negotiationInProgress := false, iceRestartPending := false,
          lastIceRestart := none, pendingCandidates := [7, 9] } "a").1.candidates =
      [3, 7, 9] := by
  constructor
  · exact (pending_candidates_drain _ _ 9 "a").1 rfl
  · exact (pending_candidates_drain _
      { makingOffer := false, negotiationPending := false,
        negotiationInProgress := false, iceRestartPending := false,
        lastIceRestart := none, pendingCandidates := [7, 9] } 9 "a").2.2.1.1

/-- The guard on a non-empty X-Real-IP header collapses when the empty
string never parses as an IP. -/
theorem viaReal_eq (M : NetModel) (s : List Char) (hempty : M.parseIP [] = none) :
    (if s ≠ [] then
      (match M.parseIP s with
       | some ip => some (M.ipToString ip)
       | none => none)
     else none) =
      (match M.parseIP s with
       | some ip => some (M.ipToString ip)
       | none => none) := by
  by_cases h : s = []
  · simp [h, hempty]
  · simp [h]

/-- The guard on a non-empty X-Forwarded-For header collapses because an
empty header splits into one empty entry, which the loop skips. -/
theorem xffGuard_eq (M : NetModel) (s : List Char) :
    (if s ≠ [] then firstForwardedIP M (splitOnComma s) else none) =
      firstForwardedIP M (splitOnComma s) := by
  by_cases h : s = []
  · simp [h, splitOnComma, firstForwardedIP, trimSpace]
  · simp [h]

/-- C6: clientIP returns, for a trusted (loopback or private) immediate
remote address, the canonical form of X-Real-IP when it parses as an IP,
otherwise of the first X-Forwarded-For entry that parses as an IP; in
every other case the IP of the raw remote address (the raw address
itself when it holds no IP).  The only assumption on the abstract net
primitives is that the empty string parses as no IP. -/
theorem clientIP_matches_spec (M : NetModel) (r : RequestModel)
    (hempty : M.parseIP [] = none) :
    clientIP M r = clientIPSpec M r := by
  unfold clientIP clientIPSpec
  cases hrip : parseRemoteIP M r.remoteAddr with
  | none => simp [isTrustedProxy]
  | some rip =>
    simp only [isTrustedProxy]
    by_cases htr : (M.isLoopback rip || M.isPrivate rip) = true
    · rw [if_pos htr, if_pos htr, viaReal_eq M _ hempty, xffGuard_eq M]
      cases hp : M.parseIP (trimSpace r.xRealIP) with
      | some ip => simp
      | none =>
        cases hx : firstForwardedIP M (splitOnComma (trimSpace r.xForwardedFor)) with
        | some s => simp
        | none => simp
    · rw [if_neg htr, if_neg htr]

/-- Witness for C6 on the concrete net model: a private remote address
honors the X-Real-IP header. -/
theorem clientIP_matches_spec_witness :
    clientIP testNet
        { remoteAddr := ("10.0.0.1:99").toList, xRealIP := ("203.0.113.5").toList,
          xForwardedFor := [] } =
      clientIPSpec testNet
        { remoteAddr := ("10.0.0.1:99").toList, xRealIP := ("203.0.113.5").toList,
          xForwardedFor := [] } :=
  clientIP_matches_spec testNet _ rfl

/-- takeLast keeps at most n elements. -/
theorem takeLast_length_le {α : Type} (n : Nat) (l : List α) :
    (takeLast n l).length ≤ n := by
  simp [takeLast]
  omega

/-- Nested takeLast collapses to the smaller bound. -/
theorem takeLast_takeLast {α : Type} (a b : Nat) (l : List α) (h : a ≤ b) :
    takeLast a (takeLast b l) = takeLast a l := by
  unfold takeLast
  rw [List.drop_drop]
  congr 1
  simp [List.length_drop]
  omega

/-- lineBuffer.append keeps max and the partial tail. -/
theorem lineAppend_max_carry (b : LineBuffer) (line : List Char) :
    (b.append line).max = b.max ∧ (b.append line).carry = b.carry := by
  unfold LineBuffer.append
  split
  · exact ⟨rfl, rfl⟩
  · split <;> exact ⟨rfl, rfl⟩

/-- One append keeps the ring equal to the last max lines of the full
history: when the ring is full the oldest line is dropped first. -/
theorem lineAppend_takeLast (b : LineBuffer) (line : List Char)
    (L : List (List Char)) (hm : b.max ≠ 0) (h : b.lines = takeLast b.max L) :
    (b.append line).lines = takeLast b.max (L ++ [line]) := by
  have hlen : b.lines.length = L.length - (L.length - b.max) := by
    rw [h]; simp [takeLast]
  unfold LineBuffer.append
  rw [if_neg hm]
  by_cases hfull : b.max ≤ b.lines.length
  · rw [if_pos hfull, h]
    unfold takeLast
    rw [List.tail_drop, List.drop_append_eq_append_drop]
    have e1 : (L ++ [line]).length - b.max = (L.length - b.max) + 1 := by
      simp; omega
    have e2 : (L.length - b.max) + 1 - L.length = 0 := by omega
    rw [e1, e2]
    simp
  · rw [if_neg hfull, h]
    unfold takeLast
    have e0 : L.length - b.max = 0 := by omega
    have e1 : (L ++ [line]).length - b.max = 0 := by simp; omega
    rw [e0, e1]
    simp

/-- Folding appends keeps the ring equal to the last max lines of the
full history. -/
theorem foldl_append_takeLast (ls : List (List Char)) :
    ∀ (b : LineBuffer) (L : List (List Char)), b.max ≠ 0 →
      b.lines = takeLast b.max L →
      ((ls.foldl LineBuffer.append b).lines = takeLast b.max (L ++ ls) ∧
       (ls.foldl LineBuffer.append b).max = b.max ∧
       (ls.foldl LineBuffer.append b).carry = b.carry) := by
  induction ls with
  | nil =>
    intro b L hm h
    exact ⟨by simpa using h, rfl, rfl⟩
  | cons x xs ih =>
    intro b L hm h
    obtain ⟨hmax, hcarry⟩ := lineAppend_max_carry b x
    have hx := lineAppend_takeLast b x L hm h
    have step := ih (b.append x) (L ++ [x]) (by rw [hmax]; exact hm)
      (by rw [hmax]; exact hx)
    simp only [List.foldl_cons]
    refine ⟨?_, ?_, ?_⟩
    · rw [step.1, hmax, List.append_assoc, List.singleton_append]
    · rw [step.2.1, hmax]
    · rw [step.2.2, hcarry]

/-- Splitting a concatenated stream is splitting the first part and then
continuing from its leftover tail. -/
theorem splitLinesAux_append (a : List Char) :
    ∀ (acc b : List Char),
      splitLinesAux acc (a ++ b) =
        ((splitLinesAux acc a).1 ++
           (splitLinesAux (splitLinesAux acc a).2.reverse b).1,
         (splitLinesAux (splitLinesAux acc a).2.reverse b).2) := by
  induction a with
  | nil =>
    intro acc b
    simp [splitLinesAux]
  | cons c a ih =>
    intro acc b
    by_cases hc : c = '\n'
    · simp only [List.cons_append, splitLinesAux, hc, if_pos]
      simp only [List.append_eq]
      rw [ih [] b]
    · simp only [List.cons_append, splitLinesAux, hc, if_neg, ite_false]
      exact ih (c :: acc) b

/-- A stream with no newline splits into no lines and itself appended to
the running accumulator. -/
theorem splitLinesAux_no_newline (l : List Char) :
    ∀ acc : List Char, ('\n' ∉ l) → splitLinesAux acc l = ([], acc.reverse ++ l) := by
  induction l with
  | nil =>
    intro acc h
    simp [splitLinesAux]
  | cons c rest ih =>
    intro acc h
    have hc : ¬(c = '\n') := fun e => h (by simp [e])
    simp only [splitLinesAux, hc, ite_false]
    rw [ih (c :: acc) (fun hmem => h (List.mem_cons_of_mem _ hmem))]
    simp

/-- The leftover tail of a split holds no newline. -/
theorem carryOf_no_newline (l : List Char) :
    ∀ acc : List Char, '\n' ∉ acc → '\n' ∉ (splitLinesAux acc l).2 := by
  induction l with
  | nil =>
    intro acc h
    simpa [splitLinesAux] using h
  | cons c rest ih =>
    intro acc h
    by_cases hc : c = '\n'
    · simp only [splitLinesAux, hc, if_pos]
      exact ih [] (by simp)
    · simp only [splitLinesAux, hc, ite_false]
      refine ih (c :: acc) ?_
      simp only [List.mem_cons, not_or]
      exact ⟨fun e => hc e.symm, h⟩

/-- One write step preserves the buffer invariant: the ring holds the
last max complete lines of everything consumed, the tail holds the chars
after the last newline. -/
theorem write_invariant (b : LineBuffer) (consumed p : List Char)
    (hm : b.max ≠ 0)
    (hlines : b.lines = takeLast b.max (completeLines consumed))
    (hcarry : b.carry = carryOf consumed) :
    ((b.write p).max = b.max ∧
     (b.write p).lines = takeLast b.max (completeLines (consumed ++ p)) ∧
     (b.write p).carry = carryOf (consumed ++ p)) := by
  have hnc : '\n' ∉ carryOf consumed := carryOf_no_newline consumed [] (by simp)
  have hkey : splitLinesAux [] (carryOf consumed ++ p) =
      splitLinesAux (carryOf consumed).reverse p := by
    rw [splitLinesAux_append, splitLinesAux_no_newline (carryOf consumed) [] hnc]
    simp
  have hcl : completeLines (consumed ++ p) =
      completeLines consumed ++ (splitLinesAux (carryOf consumed).reverse p).1 := by
    unfold completeLines carryOf
    rw [splitLinesAux_append]
  have hco : carryOf (consumed ++ p) =
      (splitLinesAux (carryOf consumed).reverse p).2 := by
    unfold carryOf
    rw [splitLinesAux_append]
  unfold LineBuffer.write
  rw [hcarry, hkey]
  have hb : ({ b with carry := (splitLinesAux (carryOf consumed).reverse p).2 }
      : LineBuffer).lines =
      takeLast ({ b with carry := (splitLinesAux (carryOf consumed).reverse p).2 }
        : LineBuffer).max (completeLines consumed) := hlines
  obtain ⟨fl, fm, fc⟩ := foldl_append_takeLast
    (splitLinesAux (carryOf consumed).reverse p).1
    { b with carry := (splitLinesAux (carryOf consumed).reverse p).2 }
    (completeLines consumed) hm hb
  refine ⟨fm, ?_, ?_⟩
  · rw [fl, hcl]
  · rw [fc, hco]

/-- Folding writes keeps the buffer invariant over the whole stream. -/
theorem foldl_write_invariant (chunks : List (List Char)) :
    ∀ (b : LineBuffer) (consumed : List Char), b.max ≠ 0 →
      b.lines = takeLast b.max (completeLines consumed) →
      b.carry = carryOf consumed →
      ((chunks.foldl LineBuffer.write b).max = b.max ∧
       (chunks.foldl LineBuffer.write b).lines =
         takeLast b.max (completeLines (consumed ++ chunks.flatten)) ∧
       (chunks.foldl LineBuffer.write b).carry = carryOf (consumed ++ chunks.flatten)) := by
  induction chunks with
  | nil =>
    intro b consumed hm h1 h2
    exact ⟨rfl, by simpa using h1, by simpa using h2⟩
  | cons p ps ih =>
    intro b consumed hm h1 h2
    obtain ⟨wm, wl, wc⟩ := write_invariant b consumed p hm h1 h2
    obtain ⟨sm, sl, sc⟩ := ih (b.write p) (consumed ++ p) (by rw [wm]; exact hm)
      (by rw [wm]; exact wl) wc
    simp only [List.foldl_cons, List.flatten_cons]
    exact ⟨by rw [sm, wm],
      by rw [sl, wm, List.append_assoc],
      by rw [sc, List.append_assoc]⟩

/-- lineBuffer.recent with a non-zero limit returns the last limit lines
in order. -/
theorem recent_eq_takeLast (b : LineBuffer) (limit : Nat) (hl : limit ≠ 0) :
    b.recent limit = takeLast limit b.lines := by
  unfold LineBuffer.recent takeLast
  by_cases he : b.lines = []
  · simp [he, hl]
  · simp only [hl, he, or_self, if_false, false_or, if_neg, not_false_eq_true]
    congr 1
    omega

/-- C8: after any sequence of chunked writes into the 200-line ring, the
ring holds exactly the last 200 complete lines of the stream (oldest
dropped first), and the admin logs action returns exactly the last 100
of them, most recent last, hence at most 100 lines. -/
theorem getLogs_ring (chunks : List (List Char)) :
    ((chunks.foldl LineBuffer.write (newLineBuffer 200)).lines =
       takeLast 200 (completeLines chunks.flatten)) ∧
    ((chunks.foldl LineBuffer.write (newLineBuffer 200)).lines.length ≤ 200) ∧
    (getLogs (chunks.foldl LineBuffer.write (newLineBuffer 200)) =
       takeLast 100 (completeLines chunks.flatten)) ∧
    ((getLogs (chunks.foldl LineBuffer.write (newLineBuffer 200))).length ≤ 100) := by
  have base1 : (newLineBuffer 200).lines =
      takeLast (newLineBuffer 200).max (completeLines []) := by
    simp [newLineBuffer, takeLast, completeLines, splitLinesAux]
  have base2 : (newLineBuffer 200).carry = carryOf [] := by
    simp [newLineBuffer, carryOf, splitLinesAux]
  obtain ⟨hm, hl, hc⟩ := foldl_write_invariant chunks (newLineBuffer 200) []
    (by simp [newLineBuffer]) base1 base2
  have hmax : (newLineBuffer 200).max = 200 := rfl
  rw [hmax, List.nil_append] at hl
  refine ⟨hl, ?_, ?_, ?_⟩
  · rw [hl]; exact takeLast_length_le 200 _
  · unfold getLogs
    rw [recent_eq_takeLast _ 100 (by omega), hl,
      takeLast_takeLast 100 200 _ (by omega)]
  · unfold getLogs
    rw [recent_eq_takeLast _ 100 (by omega)]
    exact takeLast_length_le 100 _

/-- C9: for every integer p, gainToPercent (percentToGain p) equals
clampPercent p, the clamp of p to the interval from 0 to 200. -/
theorem gain_percent_round_trip (p : Int) :
    gainToPercent (percentToGain p) = clampPercent p := by
  unfold gainToPercent percentToGain clampPercent MAX_PERCENT MIN_PERCENT
  have hlo : (0 : Int) ≤ min 200 (max 0 p) := le_min (by norm_num) (le_max_left 0 p)
  have hhi : min 200 (max 0 p) ≤ (200 : Int) := min_le_left _ _
  have hdiv : ((min 200 (max 0 p) : Int) : ℚ) / 100 * 100 = ((min 200 (max 0 p) : Int) : ℚ) := by
    field_simp
  rw [hdiv, round_intCast]
  omega

/-- C10: HandleAdmin authorizes a request exactly when the key query
parameter is non-empty and equals the configured admin key; in particular
an empty key is rejected with 401 even when the configured admin key is
itself empty. -/
theorem handleAdmin_auth_iff :
    (∀ key adminKey : String,
      handleAdminAuthorized key adminKey = true ↔ (key ≠ "" ∧ key = adminKey)) ∧
    handleAdminAuthorized "" "" = false := by
  refine ⟨fun key adminKey => ?_, rfl⟩
  simp [handleAdminAuthorized, not_or, and_comm]

/-- C7: after BanIP the ip is banned, whatever the outcome of persisting
the ban list: a save failure is only logged and the in-memory set keeps
the entry. -/
theorem banIP_isBanned (st : BanState) (ip : String) (saveOK : Bool) :
    IsBanned (BanIP st ip saveOK).1 ip = true := by
  unfold BanIP IsBanned
  by_cases h : ip ∈ st.bannedIPs <;>
    simp [h, List.elem_iff]

/-- C4: one cleanup pass removes an entry exactly when its peer count is
zero and more than two hours have elapsed since its last-empty timestamp;
every other entry survives unchanged. -/
theorem cleanup_removes_iff (now : Int) (rooms : List (String × RoomModel))
    (entry : String × RoomModel) :
    entry ∈ cleanup now rooms ↔
      entry ∈ rooms ∧
        ¬(entry.2.peers.length = 0 ∧ now - entry.2.lastEmptyTime > twoHoursNs) := by
  unfold cleanup roomExpired
  simp [List.mem_filter, and_congr_right_iff, not_and, decide_eq_true_eq]
  tauto

/-- C5: when the capacity check sees at least maxRoomPeers peers it sends
the Room full error frame, closes the channel, and leaves the peer map
unchanged; below capacity the peer is registered in the map. -/
theorem capacityCheck_spec (peers : List (String × String)) (peerID name : String) :
    (peers.length ≥ maxRoomPeers →
      capacityCheck peers peerID name =
        { peers := peers
          sentToJoiner := [{ type := "error", message := "Room full" }]
          closed := true }) ∧
    (peers.length < maxRoomPeers →
      (capacityCheck peers peerID name).peers = (peerID, name) :: peers ∧
      (peerID, name) ∈ (capacityCheck peers peerID name).peers ∧
      (capacityCheck peers peerID name).sentToJoiner = [] ∧
      (capacityCheck peers peerID name).closed = false) := by
  constructor
  · intro h
    simp [capacityCheck, h]
  · intro h
    have h' : ¬ peers.length ≥ maxRoomPeers := by omega
    simp [capacityCheck, h']

/-- Witness for C5 at concrete inputs: an empty room registers the peer
and a full room rejects it. -/
theorem capacityCheck_spec_witness :
    (capacityCheck (List.replicate 10 ("p", "n")) "new" "nick" =
      { peers := List.replicate 10 ("p", "n")
        sentToJoiner := [{ type := "error", message := "Room full" }]
        closed := true }) ∧
    (capacityCheck [] "new" "nick").peers = [("new", "nick")] := by
  refine ⟨(capacityCheck_spec (List.replicate 10 ("p", "n")) "new" "nick").1 (by decide), ?_⟩
  exact ((capacityCheck_spec [] "new" "nick").2 (by decide)).1

end Sigmartc
